import Mathlib

/-
Verification of the valuation / cost-basis engine and chart pipeline of
cliStocksTracker (src/cliStocksTracker.py), via a shallow embedding.

Modelling conventions:
- A price sample is a `Val := Option ℚ`: `some q` is a finite float,
  `none` models a non-finite sample (NaN).  Exact float rounding is not
  modelled; all the verified properties are exact-arithmetic identities.
- Arithmetic on `Val` propagates `none`, mirroring IEEE NaN propagation.
  `vdiv` also returns `none` on a zero divisor (Python would raise
  ZeroDivisionError there); theorems about division always carry a
  nonzero-divisor hypothesis, under which the two semantics agree.
- Python exceptions (IndexError on out-of-range reads, `exit()` in
  `average_buyin`, the min/max of an empty list) are modelled by
  `Option`-valued functions returning `none` at the outer level.
- Config values arrive already parsed: a buy/sell lot "qty@price" is a
  pair `(ℚ × ℚ)` (quantity, price); the "graph" key is the Bool
  `stocks_config[stock]["graph"] == "True"`; the CSS3 named-color table of
  the external `webcolors` package is abstracted as the list of its keys,
  passed in as a parameter (no verified property depends on its contents).
- External rendering (`plotille`) and color conversion
  (`webcolors.hex_to_rgb`) are kept symbolic: a chart line's color is
  recorded as the constructor of `ChartColor` saying which table and index
  the code used.
-/

/-- A price sample: `some q` is a finite value, `none` a non-finite (NaN). -/
abbrev Val := Option ℚ

/-- NaN-propagating addition, as in float arithmetic. -/
def vadd : Val → Val → Val
  | some a, some b => some (a + b)
  | _, _ => none

/-- NaN-propagating subtraction. -/
def vsub : Val → Val → Val
  | some a, some b => some (a - b)
  | _, _ => none

/-- NaN-propagating multiplication. -/
def vmul : Val → Val → Val
  | some a, some b => some (a * b)
  | _, _ => none

/-- NaN-propagating division; `none` also on a zero divisor (Python raises
ZeroDivisionError there, conflated with NaN in this embedding — theorems
using `vdiv` carry a nonzero-divisor hypothesis). -/
def vdiv : Val → Val → Val
  | some a, some b => if b = 0 then none else some (a / b)
  | _, _ => none

/-- Float strict comparison: any comparison involving a NaN is false,
as in IEEE semantics used by Python floats. -/
def vlt : Val → Val → Bool
  | some a, some b => decide (a < b)
  | _, _ => false

/-- `Portfolio.average_buyin` (src/cliStocksTracker.py lines 199-230), on
already-parsed lots.  The code loops over the buys summing `buy_c` and
`buy_p` and calls `exit()` at the first non-positive quantity, then does
the same for sells; observationally it returns a value iff every lot
quantity is positive, modelled here by the `List.all` guards returning
`none` (the run abort) otherwise.  `buy_p` accumulates
`float(buy[1]) * next_c` (price * quantity) in the code's operand order. -/
def average_buyin (buys sells : List (ℚ × ℚ)) : Option (ℚ × ℚ) :=
  if buys.all (fun b => decide (0 < b.1)) then
    if sells.all (fun s => decide (0 < s.1)) then
      let buy_c := (buys.map Prod.fst).sum
      let buy_p := (buys.map (fun b => b.2 * b.1)).sum
      let sell_c := (sells.map Prod.fst).sum
      let sell_p := (sells.map (fun s => s.2 * s.1)).sum
      let count := buy_c - sell_c
      if count = 0 then some (0, 0)
      else some (count, (buy_p - sell_p) / count)
    else none
  else none

/-- The `Stock` class (src/cliStocksTracker.py lines 137-168).  `color` is
set by `__init__` to `None` and never reassigned anywhere in the program
(the portfolio keeps requested colors in its own `color_list`). -/
structure Stock where
  symbol : String
  value : Val
  data : List Val
  graph : Bool
  color : Option String
deriving Repr, DecidableEq

/-- `Stock.get_curr`: `self.data[-1]`.  The `.join` collapses the
out-of-range read on an empty list (IndexError) and a NaN last sample into
`none`; theorems about it always assume a nonempty series. -/
def Stock.get_curr (s : Stock) : Val :=
  s.data.getLast?.join

/-- `Stock.get_open`: `self.data[0]`, same conventions as `get_curr`. -/
def Stock.get_open (s : Stock) : Val :=
  s.data.head?.join

/-- `Stock.calc_value`: `self.data[-1] * stocks_count`. -/
def Stock.calc_value (s : Stock) (stocks_count : ℚ) : Val :=
  vmul s.get_curr (some stocks_count)

/-- The NaN-repair loop of `Graph.gen_graph` (src/cliStocksTracker.py lines
600-603):

  for q in range(len(stock.data)):
      if math.isnan(stock.data[q]):
          index = q - 1 if q - 1 >= 0 else q + 1
          stock.data[q] = stock.data[index]

The in-place left-to-right loop is modelled with an accumulator `prev`
holding the already-processed prefix in reverse: at position `q ≥ 1` the
read `stock.data[q - 1]` is the head of `prev` (the value after any
earlier substitution, exactly what the mutated Python list holds), and at
`q = 0` the read `stock.data[1]` is the head of the unprocessed rest —
`none` (IndexError) when the series has length 1. -/
def repairGo (prev : List Val) : List Val → Option (List Val)
  | [] => some prev.reverse
  | v :: rest =>
    if v.isSome then repairGo (v :: prev) rest
    else
      match prev with
      | p :: _ => repairGo (p :: prev) rest
      | [] =>
        match rest with
        | r :: _ => repairGo (r :: prev) rest
        | [] => none

/-- NaN repair of a full series, as performed by `Graph.gen_graph`. -/
def repairNaN (data : List Val) : Option (List Val) :=
  repairGo [] data

/-- Modelled from the spec's words (§4.4 repair policy, for comparison with
the code's `repairNaN`): "for each non-finite sample at index i,
substitute the value at index i-1 if it exists *and is finite*, else the
value at index i+1" — same in-place left-to-right scan, but falling
through to the right neighbor also when the left neighbor is non-finite. -/
def repairSpecGo (prev : List Val) : List Val → Option (List Val)
  | [] => some prev.reverse
  | v :: rest =>
    if v.isSome then repairSpecGo (v :: prev) rest
    else
      match prev with
      | p :: _ =>
        if p.isSome then repairSpecGo (p :: prev) rest
        else
          match rest with
          | r :: _ => repairSpecGo (r :: prev) rest
          | [] => none
      | [] =>
        match rest with
        | r :: _ => repairSpecGo (r :: prev) rest
        | [] => none

/-- The spec's repair policy on a full series. -/
def repairSpec (data : List Val) : Option (List Val) :=
  repairSpecGo [] data

/-- Per-symbol configuration, as read by `Portfolio.populate` from
`stocks_config[stock]`: the "graph" flag, parsed buy and sell lots (a
missing key is the empty list, matching the code's empty-tuple default),
and the raw "color" value if present. -/
structure StockConfig where
  graph : Bool
  buy : List (ℚ × ℚ)
  sell : List (ℚ × ℚ)
  color : Option String
deriving Repr, DecidableEq

/-- The literal hash character used as the hex-color marker. -/
def hashMark : String := "#"

/-- The color legality check of `Portfolio.populate` (src lines 285-301):
a present color survives iff it starts with "#" or is a key of
`webcolors.CSS3_NAMES_TO_HEX` (abstracted as `cssNames`); otherwise the
code warns and demotes it to `None`. -/
def checkColor (cssNames : List String) : Option String → Option String
  | none => none
  | some c => if c.startsWith hashMark || cssNames.contains c then some c else none

/-- The `Portfolio` singleton's state (src lines 171-177): the
symbol-keyed `stocks` dict (insertion-ordered, modelled as a list — all
inserted symbols are distinct since they are column labels of one fetched
frame), the parallel `stocks_metadata` dict mapping symbol to
`[count, bought_at]`, the `initial_value` accumulator and the
`color_list`. -/
structure Portfolio where
  stocks : List Stock
  stocks_metadata : List (String × ℚ × ℚ)
  initial_value : ℚ
  color_list : List (Option String)
deriving Repr, DecidableEq

/-- `Portfolio.__init__`: empty dicts, zero accumulator. -/
def Portfolio.init : Portfolio :=
  { stocks := [], stocks_metadata := [], initial_value := 0, color_list := [] }

/-- `Portfolio.add_stock` (src lines 179-187): insert the stock and its
metadata, accumulate `initial_value += count * value`, append the color. -/
def add_stock (pf : Portfolio) (stock : Stock) (count value : ℚ)
    (color : Option String) : Portfolio :=
  { stocks := pf.stocks ++ [stock]
    stocks_metadata := pf.stocks_metadata ++ [(stock.symbol, count, value)]
    initial_value := pf.initial_value + count * value
    color_list := pf.color_list ++ [color] }

/-- Dict lookup in `stocks_metadata` by symbol.  (A Python dict keeps the
last binding of a duplicated key; symbols inserted by `populate` are
distinct, and the totals theorem assumes `Nodup` accordingly.) -/
def lookupMeta : List (String × ℚ × ℚ) → String → Option (ℚ × ℚ)
  | [], _ => none
  | (s, c, v) :: rest, sym => if s = sym then some (c, v) else lookupMeta rest sym

/-- One iteration of the `populate` loop (src lines 251-305) for the
fetched column `(sym, data)`: read `data[-1]` (IndexError on an empty
column), compute the cost basis (aborting on an invalid lot), run the
color legality check, and `add_stock`.  `new_stock.color` is left `None`
as in `Stock.__init__`. -/
def populateStep (cssNames : List String) (cfg : String → StockConfig)
    (pf : Portfolio) (entry : String × List Val) : Option Portfolio := do
  let last ← entry.2.getLast?
  let cb ← average_buyin (cfg entry.1).buy (cfg entry.1).sell
  let stock : Stock :=
    { symbol := entry.1, value := last, data := entry.2,
      graph := (cfg entry.1).graph, color := none }
  pure (add_stock pf stock cb.1 cb.2 (checkColor cssNames (cfg entry.1).color))

/-- The `populate` loop from an arbitrary starting portfolio state. -/
def populateFrom (cssNames : List String) (cfg : String → StockConfig) :
    Portfolio → List (String × List Val) → Option Portfolio
  | pf, [] => some pf
  | pf, e :: rest =>
    match populateStep cssNames cfg pf e with
    | none => none
    | some pf' => populateFrom cssNames cfg pf' rest

/-- `Portfolio.populate` (src lines 246-305): iterate over the columns of
the fetched market data — note: over the *fetched* columns, not over the
configured sections — building one stock per fetched symbol. -/
def populate (cssNames : List String) (cfg : String → StockConfig)
    (fetched : List (String × List Val)) : Option Portfolio :=
  populateFrom cssNames cfg Portfolio.init fetched

/-- Per-stock absolute change of `print_table` (src lines 425-427):
`stock.get_curr() - stock.get_open()`. -/
def change_d (st : Stock) : Val :=
  vsub st.get_curr st.get_open

/-- Per-stock percentage change of `print_table` (src lines 428-430):
`(stock.get_curr() - stock.get_open()) / stock.get_curr() * 100`. -/
def change_p (st : Stock) : Val :=
  vmul (vdiv (vsub st.get_curr st.get_open) st.get_curr) (some 100)

/-- The totals accumulation of the `print_table` loop (src lines 491-497):
`current_value += stock.calc_value(meta[0])` and
`opening_value += stock.get_open() * meta[0]`, metadata looked up by
symbol. -/
def computeTotalsGo (meta : List (String × ℚ × ℚ)) :
    Val × Val → List Stock → Option (Val × Val)
  | acc, [] => some acc
  | acc, st :: rest => do
    let md ← lookupMeta meta st.symbol
    computeTotalsGo meta
      (vadd acc.1 (st.calc_value md.1), vadd acc.2 (vmul st.get_open (some md.1)))
      rest

/-- `current_value` and `opening_value` as computed by `print_table`
(initialized to 0 at src lines 421-422, accumulated over the stocks). -/
def computeTotals (pf : Portfolio) : Option (Val × Val) :=
  computeTotalsGo pf.stocks_metadata (some 0, some 0) pf.stocks

/-- `value_gained_day = self.current_value - self.opening_value`
(src line 520). -/
def value_gained_day (cur opn : Val) : Val :=
  vsub cur opn

/-- `value_gained_all = self.current_value - self.initial_value`
(src line 524). -/
def value_gained_all (pf : Portfolio) (cur : Val) : Val :=
  vsub cur (some pf.initial_value)

/-- The color a chart line is drawn with, kept symbolic over the external
`webcolors` conversions: `autoIdx n` is
`webcolors.hex_to_rgb(auto_colors[n])`, `hexColor s` is
`webcolors.hex_to_rgb(s)`, `namedColor s` is
`webcolors.hex_to_rgb(webcolors.CSS3_NAMES_TO_HEX[s])`. -/
inductive ChartColor where
  | autoIdx (n : Nat)
  | hexColor (s : String)
  | namedColor (s : String)
deriving Repr, DecidableEq

/-- The color branch of `Graph.gen_graph` (src lines 588-595) for the
series at position `i` of the chart's own stock list: `None` falls back to
`auto_colors[i % 67]`. -/
def resolveChartColor (c : Option String) (i : Nat) : ChartColor :=
  match c with
  | none => ChartColor.autoIdx (i % 67)
  | some s => if s.startsWith hashMark then ChartColor.hexColor s else ChartColor.namedColor s

/-- One plotted line: symbol, resolved color, and the (repaired) series
handed to `plotille`. -/
structure PlotEntry where
  symbol : String
  color : ChartColor
  data : List Val
deriving Repr, DecidableEq

/-- The outcome of one `Graph.gen_graph` call: the y-range set on the plot
and the plotted lines, in order. -/
structure GraphOut where
  y_min : Val
  y_max : Val
  plots : List PlotEntry
deriving Repr, DecidableEq

/-- Python's builtin `min` over a list of floats: the running minimum is
replaced only when `item < current` (so any NaN comparison keeps the
current value, and a NaN first element is never replaced); raises on an
empty list (`none` at the outer level). -/
def pymin : List Val → Option Val
  | [] => none
  | x :: xs => some (xs.foldl (fun m y => if vlt y m then y else m) x)

/-- Python's builtin `max` over a list of floats: replaced only when
`item > current`, i.e. `current < item`. -/
def pymax : List Val → Option Val
  | [] => none
  | x :: xs => some (xs.foldl (fun m y => if vlt m y then y else m) x)

/-- The loop of `Graph.find_y_range` (src lines 615-625) from running
bounds `y_min`, `y_max`: update `y_min` when `y_min > min(stock.data)` and
`y_max` when `y_max < max(stock.data)`. -/
def find_y_rangeGo : Val → Val → List Stock → Option (Val × Val)
  | y_min, y_max, [] => some (y_min, y_max)
  | y_min, y_max, st :: rest => do
    let mn ← pymin st.data
    let mx ← pymax st.data
    find_y_rangeGo (if vlt mn y_min then mn else y_min)
      (if vlt y_max mx then mx else y_max) rest

/-- `Graph.find_y_range`: `y_min` starts at the arbitrary large constant
`10000000000000` and `y_max` at `0` (src lines 616-617). -/
def find_y_range (stocks : List Stock) : Option (Val × Val) :=
  find_y_rangeGo (some 10000000000000) (some 0) stocks

/-- The per-series loop of `Graph.gen_graph` (src lines 587-610) starting
at position `i`: read `self.colors[i]` (IndexError if missing), resolve
the line color, repair the series in place, and plot it.  Returns the
mutated stock objects alongside the plotted lines. -/
def plotStocks : Nat → List Stock → List (Option String) →
    Option (List Stock × List PlotEntry)
  | _, [], _ => some ([], [])
  | i, st :: rest, cl => do
    let creq ← cl[i]?
    let color := resolveChartColor creq i
    let data ← repairNaN st.data
    let (sts, ps) ← plotStocks (i + 1) rest cl
    pure ({ st with data := data } :: sts,
      { symbol := st.symbol, color := color, data := data } :: ps)

/-- `Graph.gen_graph` (src lines 583-613): compute and set the y-range
(note: on the *unrepaired* data), then plot each series. -/
def gen_graph (gl : List Stock) (cl : List (Option String)) :
    Option (GraphOut × List Stock) := do
  let yr ← find_y_range gl
  let (sts, ps) ← plotStocks 0 gl cl
  pure ({ y_min := yr.1, y_max := yr.2, plots := ps }, sts)

/-- Write the mutated graphed stocks back over the graph-flagged positions
of the portfolio's stock list, in order.  This models the aliasing of the
Python objects: `Graph` holds references into the portfolio, so the
in-place NaN repair is visible in the portfolio's own dict. -/
def mergeRepaired : List Stock → List Stock → List Stock
  | [], _ => []
  | s :: ss, rs =>
    if s.graph then
      match rs with
      | r :: rest => r :: mergeRepaired ss rest
      | [] => s :: mergeRepaired ss []
    else s :: mergeRepaired ss rs

/-- The independent-graphs branch of `Portfolio.gen_graphs` (src lines
324-335): for each stock, by enumeration index `i` over the *whole*
portfolio, a graph-flagged stock gets its own `Graph([stock],
[self.color_list[i]])`. -/
def indepGraphsGo (cl : List (Option String)) :
    Nat → List Stock → Option (List Stock × List GraphOut)
  | _, [] => some ([], [])
  | i, st :: rest =>
    if st.graph then do
      let creq ← cl[i]?
      let (g, rs) ← gen_graph [st] [creq]
      let (sts, gs) ← indepGraphsGo cl (i + 1) rest
      pure (rs ++ sts, g :: gs)
    else do
      let (sts, gs) ← indepGraphsGo cl (i + 1) rest
      pure (st :: sts, gs)

/-- `Portfolio.gen_graphs` (src lines 307-339).  Combined mode: one graph
over the graph-flagged stocks with the color-list *prefix*
`self.color_list[:len(graphing_list)]`; no graph when the flagged set is
empty.  Independent mode: one graph per flagged stock.  Returns the
portfolio with the aliased in-place repairs applied, and the graphs. -/
def gen_graphs (independent : Bool) (pf : Portfolio) :
    Option (Portfolio × List GraphOut) :=
  if independent then
    match indepGraphsGo pf.color_list 0 pf.stocks with
    | none => none
    | some (sts, gs) => some ({ pf with stocks := sts }, gs)
  else
    let graphing_list := pf.stocks.filter (fun s => s.graph)
    if graphing_list.length > 0 then
      match gen_graph graphing_list (pf.color_list.take graphing_list.length) with
      | none => none
      | some (g, rs) => some ({ pf with stocks := mergeRepaired pf.stocks rs }, [g])
    else some (pf, [])

/-- Reference form of the in-place mutation performed by chart generation,
used to state what `gen_graphs` does to the ledger: repair the data of
every graph-flagged stock, leave the others untouched. -/
def repairGraphedSpec : List Stock → Option (List Stock)
  | [] => some []
  | s :: ss =>
    if s.graph then
      match repairNaN s.data, repairGraphedSpec ss with
      | some d, some rest => some ({ s with data := d } :: rest)
      | _, _ => none
    else
      match repairGraphedSpec ss with
      | some rest => some (s :: rest)
      | none => none

/-- All finite samples of a stock list, in order — the domain over which
the chart's y-range is claimed to be exact. -/
def allSamples (stocks : List Stock) : List ℚ :=
  (stocks.map (fun s => s.data.filterMap id)).flatten

/-! ### General helper lemmas -/

/-- Reordering a lot's `price * quantity` accumulation (the code's operand
order) into `quantity * price` (the spec's reading order). -/
theorem mulcomm_sum (l : List (ℚ × ℚ)) :
    (l.map (fun x => x.2 * x.1)).sum = (l.map (fun x => x.1 * x.2)).sum := by
  induction l with
  | nil => rfl
  | cons a t ih => simp [ih, mul_comm]

/-- The repair loop is the identity on a series with no non-finite
samples: no branch of the loop body fires. -/
theorem repairGo_finite (data : List Val) :
    ∀ prev : List Val, (∀ v ∈ data, v.isSome) →
      repairGo prev data = some (prev.reverse ++ data) := by
  induction data with
  | nil => intro prev _; simp [repairGo]
  | cons v rest ih =>
    intro prev h
    have hv : v.isSome := h v (List.mem_cons_self v rest)
    have hrest : ∀ w ∈ rest, w.isSome := fun w hw => h w (List.mem_cons_of_mem v hw)
    simp only [repairGo, hv, if_true]
    rw [ih (v :: prev) hrest]
    simp

/-- A lot list containing a non-positive quantity makes `average_buyin`
abort (the `exit()` calls at src lines 206-210 and 215-219). -/
theorem average_buyin_bad (buys sells : List (ℚ × ℚ))
    (hlot : (∃ l ∈ buys, l.1 ≤ 0) ∨ ∃ l ∈ sells, l.1 ≤ 0) :
    average_buyin buys sells = none := by
  rcases hlot with ⟨l, hl, hle⟩ | ⟨l, hl, hle⟩
  · have : ¬ (buys.all (fun b => decide (0 < b.1)) = true) := by
      rw [List.all_eq_true]
      intro h
      exact absurd (of_decide_eq_true (h l hl)) (not_lt.mpr hle)
    simp only [Bool.not_eq_true] at this
    simp [average_buyin, this]
  · by_cases hb : buys.all (fun b => decide (0 < b.1)) = true
    · have : ¬ (sells.all (fun s => decide (0 < s.1)) = true) := by
        rw [List.all_eq_true]
        intro h
        exact absurd (of_decide_eq_true (h l hl)) (not_lt.mpr hle)
      simp only [Bool.not_eq_true] at this
      simp [average_buyin, hb, this]
    · simp only [Bool.not_eq_true] at hb
      simp [average_buyin, hb]

/-- A cost-basis abort on any fetched symbol aborts the whole `populate`
loop, from any intermediate portfolio state. -/
theorem populate_bad_lot (cssNames : List String) (cfg : String → StockConfig)
    (sym : String) (data : List Val)
    (hbad : average_buyin (cfg sym).buy (cfg sym).sell = none) :
    ∀ (fetched : List (String × List Val)) (pf : Portfolio),
      (sym, data) ∈ fetched →
      populateFrom cssNames cfg pf fetched = none := by
  intro fetched
  induction fetched with
  | nil => intro pf h; exact absurd h (List.not_mem_nil _)
  | cons e rest ih =>
    intro pf hmem
    rcases List.mem_cons.mp hmem with rfl | hmem
    · have hstep : populateStep cssNames cfg pf (sym, data) = none := by
        simp only [populateStep]
        cases data.getLast? <;> simp [hbad]
      simp [populateFrom, hstep]
    · cases hstep : populateStep cssNames cfg pf e with
      | none => simp [populateFrom, hstep]
      | some pf2 => simp [populateFrom, hstep]; exact ih pf2 hmem

/-! ### Claim theorems -/

/-- C1: for positive-quantity lots, `average_buyin` returns the net
quantity `Σ buy qty - Σ sell qty`; `(0, 0)` when that net is zero, and
otherwise the average cost `(Σ buy qty*price - Σ sell qty*price) / net`;
in particular, for nonempty buys and no sells it returns the total bought
quantity and the quantity-weighted mean of the buy prices. -/
theorem average_buyin_basis (buys sells : List (ℚ × ℚ))
    (hb : ∀ l ∈ buys, 0 < l.1) (hs : ∀ l ∈ sells, 0 < l.1) :
    ((buys.map Prod.fst).sum - (sells.map Prod.fst).sum = 0 →
      average_buyin buys sells = some (0, 0)) ∧
    ((buys.map Prod.fst).sum - (sells.map Prod.fst).sum ≠ 0 →
      average_buyin buys sells =
        some ((buys.map Prod.fst).sum - (sells.map Prod.fst).sum,
          ((buys.map (fun l => l.1 * l.2)).sum - (sells.map (fun l => l.1 * l.2)).sum) /
            ((buys.map Prod.fst).sum - (sells.map Prod.fst).sum))) ∧
    (buys ≠ [] → sells = [] →
      average_buyin buys sells =
        some ((buys.map Prod.fst).sum,
          (buys.map (fun l => l.1 * l.2)).sum / (buys.map Prod.fst).sum)) := by
  have hball : buys.all (fun b => decide (0 < b.1)) = true := by
    rw [List.all_eq_true]; intro x hx; exact decide_eq_true (hb x hx)
  have hsall : sells.all (fun s => decide (0 < s.1)) = true := by
    rw [List.all_eq_true]; intro x hx; exact decide_eq_true (hs x hx)
  refine ⟨?_, ?_, ?_⟩
  · intro h0
    simp only [average_buyin, hball, hsall, if_true, h0, if_pos rfl]
  · intro hne
    simp only [average_buyin, hball, hsall, if_true, if_neg hne, mulcomm_sum]
  · intro hbne hsnil
    subst hsnil
    have hpos : 0 < (buys.map Prod.fst).sum := by
      apply List.sum_pos
      · intro x hx
        obtain ⟨l, hl, rfl⟩ := List.mem_map.mp hx
        exact hb l hl
      · simpa using hbne
    have hne : (buys.map Prod.fst).sum - (([] : List (ℚ × ℚ)).map Prod.fst).sum ≠ 0 := by
      simpa using ne_of_gt hpos
    simp only [average_buyin, hball, if_true, List.all_nil, if_neg hne, mulcomm_sum]
    simp

/-- Witness for C1 at buys `[2@10, 2@20]`, no sells: net 4, average 15. -/
theorem average_buyin_basis_witness :
    average_buyin [((2 : ℚ), (10 : ℚ)), ((2 : ℚ), (20 : ℚ))] [] = some (4, 15) := by
  have h := (average_buyin_basis [((2 : ℚ), (10 : ℚ)), ((2 : ℚ), (20 : ℚ))] []
    (by decide) (by decide)).2.2 (by decide) rfl
  rw [h]; norm_num

/-- C7: a non-positive lot quantity in either lot list makes the
cost-basis computation abort with no numeric result, and the abort
propagates: the whole `populate` run fails whenever any fetched symbol's
configuration holds such a lot. -/
theorem average_buyin_invalid_lot (buys sells : List (ℚ × ℚ))
    (hlot : (∃ l ∈ buys, l.1 ≤ 0) ∨ ∃ l ∈ sells, l.1 ≤ 0) :
    average_buyin buys sells = none ∧
    ∀ (cssNames : List String) (cfg : String → StockConfig) (pf : Portfolio)
      (fetched : List (String × List Val)) (sym : String) (data : List Val),
      (sym, data) ∈ fetched → (cfg sym).buy = buys → (cfg sym).sell = sells →
      populateFrom cssNames cfg pf fetched = none := by
  have h1 := average_buyin_bad buys sells hlot
  refine ⟨h1, ?_⟩
  intro cssNames cfg pf fetched sym data hmem hbs hss
  exact populate_bad_lot cssNames cfg sym data (by rw [hbs, hss]; exact h1) fetched pf hmem

/-- Witness for C7 at the zero-quantity buy lot `0@10`. -/
theorem average_buyin_invalid_lot_witness :
    average_buyin [((0 : ℚ), (10 : ℚ))] [] = none :=
  (average_buyin_invalid_lot [((0 : ℚ), (10 : ℚ))] []
    (Or.inl ⟨((0 : ℚ), (10 : ℚ)), by decide, by decide⟩)).1

/-- C2 counterexample: on `[NaN, NaN, 7.0]` the code substitutes the value
at index i-1 whenever that index exists, even when it is non-finite, and
leaves `[NaN, NaN, 7.0]` unchanged; the claimed policy (use i-1 only if
finite, else i+1) would instead produce `[NaN, 7.0, 7.0]`. -/
theorem repairNaN_policy_counterexample :
    repairNaN [none, none, some 7] = some [none, none, some 7] ∧
    repairSpec [none, none, some 7] = some [none, some 7, some 7] ∧
    repairNaN [none, none, some 7] ≠ repairSpec [none, none, some 7] := by
  refine ⟨rfl, rfl, by decide⟩

/-- C2 amended: the repair scan substitutes, for a non-finite sample at
index i, the current value at index i-1 whenever i ≥ 1 — with no
finiteness check on that neighbor — and the value at index i+1 only when
i = 0.  Consequently `[5.0, NaN, 7.0]` repairs to `[5.0, 5.0, 7.0]`,
repair is the identity on a series with no non-finite values, and
`[NaN, NaN, 7.0]` is left unchanged. -/
theorem repairNaN_amended :
    repairNaN [some 5, none, some 7] = some [some 5, some 5, some 7] ∧
    (∀ data : List Val, (∀ v ∈ data, v.isSome) → repairNaN data = some data) ∧
    repairNaN [none, none, some 7] = some [none, none, some 7] := by
  refine ⟨rfl, ?_, rfl⟩
  intro data h
  simpa [repairNaN] using repairGo_finite data [] h

/-- Witness for C2 (amended) on the finite series `[1, 2]`. -/
theorem repairNaN_amended_witness :
    repairNaN [some 1, some 2] = some [some 1, some 2] :=
  repairNaN_amended.2.1 [some 1, some 2] (by decide)

/-- C10: a length-1 series whose only sample is non-finite makes the
repair read index 1, which is out of range, so repair — and with it the
whole `gen_graph` call on such a stock — fails instead of returning. -/
theorem repair_singleton_nan :
    repairNaN [none] = none ∧
    gen_graph [(⟨"X", none, [none], true, none⟩ : Stock)] [none] = none :=
  ⟨rfl, rfl⟩

/-- Success of one `populate` iteration, destructured: the fetched column
was nonempty, the cost basis computed, and the stock was added. -/
theorem populateStep_some (cssNames : List String) (cfg : String → StockConfig)
    (pf pf2 : Portfolio) (e : String × List Val)
    (h : populateStep cssNames cfg pf e = some pf2) :
    ∃ last cb, e.2.getLast? = some last ∧
      average_buyin (cfg e.1).buy (cfg e.1).sell = some cb ∧
      pf2 = add_stock pf ⟨e.1, last, e.2, (cfg e.1).graph, none⟩ cb.1 cb.2
        (checkColor cssNames (cfg e.1).color) := by
  simp only [populateStep] at h
  cases hl : e.2.getLast? with
  | none => simp [hl] at h
  | some last =>
    cases hcb : average_buyin (cfg e.1).buy (cfg e.1).sell with
    | none => simp [hl, hcb] at h
    | some cb =>
      simp [hl, hcb] at h
      exact ⟨last, cb, rfl, rfl, h.symm⟩

/-- The `populate` loop appends exactly one holding per fetched column, in
fetch order, whatever state it starts from. -/
theorem populateFrom_symbols (cssNames : List String) (cfg : String → StockConfig) :
    ∀ (fetched : List (String × List Val)) (pf0 pf : Portfolio),
      populateFrom cssNames cfg pf0 fetched = some pf →
      pf.stocks.map Stock.symbol = pf0.stocks.map Stock.symbol ++ fetched.map Prod.fst := by
  intro fetched
  induction fetched with
  | nil =>
    intro pf0 pf h
    simp only [populateFrom, Option.some.injEq] at h
    subst h; simp
  | cons e rest ih =>
    intro pf0 pf h
    simp only [populateFrom] at h
    cases hstep : populateStep cssNames cfg pf0 e with
    | none => rw [hstep] at h; exact absurd h (by simp)
    | some pf1 =>
      rw [hstep] at h
      obtain ⟨last, cb, _, _, rfl⟩ := populateStep_some _ _ _ _ _ hstep
      rw [ih _ pf h]
      simp [add_stock]

/-- C4 amended: ledger population silently mirrors the *fetched* data — on
success the ledger's holdings are exactly the fetched symbols, in fetch
order, so a configured symbol for which the fetch returned no samples is
silently omitted from the ledger and no error is raised (the program has
no `MissingDataError`). -/
theorem populate_symbols_amended (cssNames : List String) (cfg : String → StockConfig)
    (fetched : List (String × List Val)) (pf : Portfolio)
    (h : populate cssNames cfg fetched = some pf) :
    pf.stocks.map Stock.symbol = fetched.map Prod.fst := by
  simpa [Portfolio.init] using populateFrom_symbols cssNames cfg fetched Portfolio.init pf h

/-- C4 counterexample: with symbols "AAA" and "BBB" configured (the config
function is total, and the run's `stocks_config.sections()` was
`["AAA", "BBB"]`) but the batch fetch returning samples only for "AAA",
`populate` succeeds — it does not fail with any error — and the resulting
ledger contains only "AAA": the missing holding is silently dropped. -/
theorem populate_missing_symbol_counterexample :
    (populate [] (fun _ => ⟨false, [(1, 2)], [], none⟩)
        [("AAA", [some 5])]).map (fun pf => pf.stocks.map Stock.symbol) =
      some ["AAA"] := by
  norm_num [populate, populateFrom, populateStep, average_buyin, add_stock,
    Portfolio.init, checkColor]

/-- Witness for C4 (amended) on a one-symbol fetch. -/
theorem populate_symbols_amended_witness :
    (Portfolio.mk [(⟨"AAA", some 5, [some 5], false, none⟩ : Stock)]
        [("AAA", 1, 2)] 2 [none]).stocks.map Stock.symbol =
      [(("AAA" : String), [some (5 : ℚ)])].map Prod.fst :=
  populate_symbols_amended [] (fun _ => ⟨false, [(1, 2)], [], none⟩)
    [("AAA", [some 5])] _
    (by norm_num [populate, populateFrom, populateStep, average_buyin, add_stock,
      Portfolio.init, checkColor])

/-- Success of `gen_graph`, destructured into its two stages. -/
theorem gen_graph_some (gl : List Stock) (cl : List (Option String))
    (g : GraphOut) (sts : List Stock)
    (h : gen_graph gl cl = some (g, sts)) :
    ∃ yr ps, find_y_range gl = some yr ∧ plotStocks 0 gl cl = some (sts, ps) ∧
      g = ⟨yr.1, yr.2, ps⟩ := by
  simp only [gen_graph] at h
  cases hyr : find_y_range gl with
  | none => simp [hyr] at h
  | some yr =>
    cases hps : plotStocks 0 gl cl with
    | none => simp [hyr, hps] at h
    | some pr =>
      simp [hyr, hps] at h
      exact ⟨yr, pr.2, rfl, by rw [← h.2], by simp [← h.1]⟩

/-- The plotting loop replaces each plotted stock's data with its repaired
series and changes nothing else about the stock. -/
theorem plotStocks_repairs :
    ∀ (gl : List Stock) (i : Nat) (cl : List (Option String))
      (sts : List Stock) (ps : List PlotEntry),
      plotStocks i gl cl = some (sts, ps) →
      List.Forall₂ (fun s s2 => ∃ d, repairNaN s.data = some d ∧
        s2 = { s with data := d }) gl sts := by
  intro gl
  induction gl with
  | nil =>
    intro i cl sts ps h
    simp only [plotStocks, Option.some.injEq, Prod.mk.injEq] at h
    rw [← h.1]
    exact List.Forall₂.nil
  | cons st rest ih =>
    intro i cl sts ps h
    simp only [plotStocks] at h
    cases hc : cl[i]? with
    | none => simp [hc] at h
    | some creq =>
      cases hd : repairNaN st.data with
      | none => simp [hc, hd] at h
      | some d =>
        cases hrec : plotStocks (i + 1) rest cl with
        | none => simp [hc, hd, hrec] at h
        | some pr =>
          simp [hc, hd, hrec] at h
          rw [← h.1]
          exact List.Forall₂.cons ⟨d, hd, rfl⟩ (ih _ _ _ _ (by rw [hrec]))

/-- A portfolio with no graph-flagged stock is untouched by the repair
specification. -/
theorem repairGraphedSpec_nograph :
    ∀ stocks : List Stock, stocks.filter (fun s => s.graph) = [] →
      repairGraphedSpec stocks = some stocks := by
  intro stocks
  induction stocks with
  | nil => intro _; rfl
  | cons s ss ih =>
    intro h
    cases hg : s.graph with
    | true => rw [List.filter_cons_of_pos (by simp [hg])] at h; exact absurd h (by simp)
    | false =>
      rw [List.filter_cons_of_neg (by simp [hg])] at h
      simp [repairGraphedSpec, hg, ih h]

/-- Writing the repaired graphed stocks back over the graph-flagged
positions realizes the repair specification on the whole stock list. -/
theorem mergeRepaired_spec :
    ∀ (stocks rs : List Stock),
      List.Forall₂ (fun s s2 => ∃ d, repairNaN s.data = some d ∧ s2 = { s with data := d })
        (stocks.filter (fun s => s.graph)) rs →
      repairGraphedSpec stocks = some (mergeRepaired stocks rs) := by
  intro stocks
  induction stocks with
  | nil => intro rs _; rfl
  | cons s ss ih =>
    intro rs h
    cases hg : s.graph with
    | true =>
      rw [List.filter_cons_of_pos (by simp [hg])] at h
      cases h with
      | cons hrel hrest =>
        obtain ⟨d, hd, rfl⟩ := hrel
        simp [mergeRepaired, hg, repairGraphedSpec, hd, ih _ hrest]
    | false =>
      rw [List.filter_cons_of_neg (by simp [hg])] at h
      simp [mergeRepaired, hg, repairGraphedSpec, ih _ h]

/-- The independent-graphs loop also realizes the repair specification. -/
theorem indepGraphsGo_spec (cl : List (Option String)) :
    ∀ (stocks : List Stock) (i : Nat) (sts : List Stock) (gs : List GraphOut),
      indepGraphsGo cl i stocks = some (sts, gs) →
      repairGraphedSpec stocks = some sts := by
  intro stocks
  induction stocks with
  | nil =>
    intro i sts gs h
    simp only [indepGraphsGo, Option.some.injEq, Prod.mk.injEq] at h
    rw [← h.1]
    rfl
  | cons st rest ih =>
    intro i sts gs h
    simp only [indepGraphsGo] at h
    cases hg : st.graph with
    | true =>
      simp only [hg, if_true] at h
      cases hc : cl[i]? with
      | none => simp [hc] at h
      | some creq =>
        cases hgen : gen_graph [st] [creq] with
        | none => simp [hc, hgen] at h
        | some gr =>
          cases hrec : indepGraphsGo cl (i + 1) rest with
          | none => simp [hc, hgen, hrec] at h
          | some pr =>
            simp [hc, hgen, hrec] at h
            obtain ⟨yr, ps, _, hps, _⟩ :=
              gen_graph_some [st] [creq] gr.1 gr.2 (by rw [hgen])
            have hrel := plotStocks_repairs [st] 0 [creq] gr.2 ps hps
            rcases List.forall₂_cons_left_iff.mp hrel with ⟨st2, rest2, hr, hnil, heq⟩
            have hr2 : rest2 = [] := List.forall₂_nil_left_iff.mp hnil
            subst hr2
            obtain ⟨d, hd, rfl⟩ := hr
            rw [← h.1, heq]
            simp [repairGraphedSpec, hg, hd, ih _ _ _ (by rw [hrec])]
    | false =>
      simp only [hg, if_false, Bool.false_eq_true] at h
      cases hrec : indepGraphsGo cl (i + 1) rest with
      | none => simp [hrec] at h
      | some pr =>
        simp [hrec] at h
        rw [← h.1]
        simp [repairGraphedSpec, hg, ih _ _ _ (by rw [hrec])]

/-- C3 amended: NaN repair happens at chart-generation time, not at ledger
population: `gen_graphs` (in either display mode) replaces the data of
exactly the stocks included in a chart by their repaired series — through
the aliased Stock objects the portfolio's own dict sees this — and leaves
every non-graph-flagged holding, and all other ledger state, untouched.
Table statistics printed after chart generation therefore see repaired
data only for charted holdings. -/
theorem gen_graphs_chart_time (independent : Bool) (pf pf2 : Portfolio)
    (gs : List GraphOut) (h : gen_graphs independent pf = some (pf2, gs)) :
    repairGraphedSpec pf.stocks = some pf2.stocks ∧
    pf2.stocks_metadata = pf.stocks_metadata ∧
    pf2.initial_value = pf.initial_value ∧
    pf2.color_list = pf.color_list := by
  cases independent with
  | true =>
    simp only [gen_graphs, if_true] at h
    cases hrec : indepGraphsGo pf.color_list 0 pf.stocks with
    | none => simp [hrec] at h
    | some pr =>
      simp [hrec] at h
      rw [← h.1]
      exact ⟨indepGraphsGo_spec _ _ _ _ _ (by rw [hrec]), rfl, rfl, rfl⟩
  | false =>
    simp only [gen_graphs, if_false, Bool.false_eq_true] at h
    by_cases hlen : (pf.stocks.filter (fun s => s.graph)).length > 0
    · simp only [hlen, if_true] at h
      cases hgen : gen_graph (pf.stocks.filter (fun s => s.graph))
          (pf.color_list.take (pf.stocks.filter (fun s => s.graph)).length) with
      | none => simp [hgen] at h
      | some gr =>
        simp [hgen] at h
        obtain ⟨yr, ps, _, hps, _⟩ := gen_graph_some _ _ gr.1 gr.2 (by rw [hgen])
        have hrel := plotStocks_repairs _ 0 _ gr.2 ps hps
        rw [← h.1]
        exact ⟨mergeRepaired_spec pf.stocks gr.2 hrel, rfl, rfl, rfl⟩
    · simp only [hlen, if_false] at h
      have hnil : pf.stocks.filter (fun s => s.graph) = [] := by
        have h0 : (pf.stocks.filter (fun s => s.graph)).length = 0 := by omega
        exact List.length_eq_zero.mp h0
      simp at h
      rw [← h.1]
      exact ⟨repairGraphedSpec_nograph pf.stocks hnil, rfl, rfl, rfl⟩

/-- C3 counterexample: a holding with a non-finite sample that is not
graph-flagged still carries the NaN after population *and* after chart
generation, so the claimed invariant "no sample is non-finite after
population, for every holding" fails on the code. -/
theorem repair_at_population_counterexample :
    ((populate [] (fun _ => ⟨false, [(1, 5)], [], none⟩)
        [("AAA", [some 5, none, some 7])]).bind (gen_graphs false)).map
      (fun pr => (pr.1.stocks.map Stock.data, pr.2)) =
      some ([[some 5, none, some 7]], []) ∧
    (none : Val) ∈ [some (5 : ℚ), none, some 7] := by
  constructor
  · norm_num [populate, populateFrom, populateStep, average_buyin, add_stock,
      Portfolio.init, checkColor, gen_graphs]
  · decide

/-- Witness for C3 (amended) on a concrete no-graph portfolio. -/
theorem gen_graphs_chart_time_witness :
    repairGraphedSpec (Portfolio.mk
      [(⟨"AAA", some 7, [some 5, none, some 7], false, none⟩ : Stock)]
      [("AAA", 1, 5)] 5 [none]).stocks =
      some (Portfolio.mk
        [(⟨"AAA", some 7, [some 5, none, some 7], false, none⟩ : Stock)]
        [("AAA", 1, 5)] 5 [none]).stocks :=
  (gen_graphs_chart_time false
    (Portfolio.mk [(⟨"AAA", some 7, [some 5, none, some 7], false, none⟩ : Stock)]
      [("AAA", 1, 5)] 5 [none])
    (Portfolio.mk [(⟨"AAA", some 7, [some 5, none, some 7], false, none⟩ : Stock)]
      [("AAA", 1, 5)] 5 [none])
    [] rfl).1

/-- C6: the per-holding percentage change divides by the *current* price:
whenever the last sample is a finite nonzero value `c` and the opening
sample a finite `o`, the reported percentage is `(c - o) / c * 100`; at
open 100 / current 110 this is `100/11 ≈ 9.09`, not `10`. -/
theorem change_pct_denominator :
    (∀ (st : Stock) (c o : ℚ), st.get_curr = some c → st.get_open = some o → c ≠ 0 →
      change_p st = some ((c - o) / c * 100)) ∧
    change_p (⟨"X", some 110, [some 100, some 110], false, none⟩ : Stock) =
      some (100 / 11) ∧
    ((100 : ℚ) / 11 ≠ 10) := by
  refine ⟨?_, ?_, by norm_num⟩
  · intro st c o hc ho hne
    simp [change_p, vsub, vmul, vdiv, hc, ho, hne]
  · norm_num [change_p, Stock.get_curr, Stock.get_open, vsub, vmul, vdiv]

/-- Witness for C6 at open 100, current 110. -/
theorem change_pct_denominator_witness :
    change_p (⟨"X", some 110, [some 100, some 110], false, none⟩ : Stock) =
      some ((110 - 100) / 110 * 100) :=
  change_pct_denominator.1 _ 110 100 rfl rfl (by norm_num)

/-- The totals loop of `print_table` accumulates exactly the sums of
`last * count` and `open * count` over the stocks, from any starting
accumulator. -/
theorem computeTotalsGo_sum (meta : List (String × ℚ × ℚ))
    (cnt avgc lastv openv : Stock → ℚ) :
    ∀ (stocks : List Stock),
      (∀ s ∈ stocks, lookupMeta meta s.symbol = some (cnt s, avgc s)) →
      (∀ s ∈ stocks, s.get_curr = some (lastv s)) →
      (∀ s ∈ stocks, s.get_open = some (openv s)) →
      ∀ a b : ℚ, computeTotalsGo meta (some a, some b) stocks =
        some (some (a + (stocks.map (fun s => lastv s * cnt s)).sum),
              some (b + (stocks.map (fun s => openv s * cnt s)).sum)) := by
  intro stocks
  induction stocks with
  | nil => intro _ _ _ a b; simp [computeTotalsGo]
  | cons st rest ih =>
    intro hm hl ho a b
    have hmst := hm st (by simp)
    have hlst := hl st (by simp)
    have host := ho st (by simp)
    simp only [computeTotalsGo, hmst, Stock.calc_value, hlst, host, vmul, vadd,
      Option.bind_eq_bind, Option.some_bind]
    rw [ih (fun s hs => hm s (by simp [hs])) (fun s hs => hl s (by simp [hs]))
      (fun s hs => ho s (by simp [hs]))]
    simp only [List.map_cons, List.sum_cons]
    congr 2 <;> ring_nf

/-- `initial_value` is a running accumulator over `add_stock` calls: after
folding any insertion sequence it equals the starting value plus
`Σ count * value`. -/
theorem add_stock_fold_initial :
    ∀ (items : List (Stock × ℚ × ℚ × Option String)) (pf0 : Portfolio),
      (items.foldl (fun pf it => add_stock pf it.1 it.2.1 it.2.2.1 it.2.2.2) pf0).initial_value =
        pf0.initial_value + (items.map (fun it => it.2.1 * it.2.2.1)).sum := by
  intro items
  induction items with
  | nil => intro pf0; simp
  | cons it rest ih =>
    intro pf0
    simp only [List.foldl_cons, List.map_cons, List.sum_cons]
    rw [ih]
    simp only [add_stock]
    ring

/-- C5: for every populated ledger (metadata lookup defined, samples
nonempty and finite) `current_value = Σ last * quantity` and
`opening_value = Σ open * quantity`; the daily gain is
`current - opening` and the overall gain `current - initial_value`, where
`initial_value` accumulated over `add_stock` equals `Σ quantity * cost`;
on the AAA/BBB example portfolio this gives initial 1250, current 1360,
opening 1250 and both gains 110. -/
theorem portfolio_totals :
    (∀ (pf : Portfolio) (cnt avgc lastv openv : Stock → ℚ),
      (∀ s ∈ pf.stocks, lookupMeta pf.stocks_metadata s.symbol = some (cnt s, avgc s)) →
      (∀ s ∈ pf.stocks, s.get_curr = some (lastv s)) →
      (∀ s ∈ pf.stocks, s.get_open = some (openv s)) →
      computeTotals pf =
        some (some ((pf.stocks.map (fun s => lastv s * cnt s)).sum),
              some ((pf.stocks.map (fun s => openv s * cnt s)).sum)) ∧
      value_gained_day (some ((pf.stocks.map (fun s => lastv s * cnt s)).sum))
          (some ((pf.stocks.map (fun s => openv s * cnt s)).sum)) =
        some ((pf.stocks.map (fun s => lastv s * cnt s)).sum -
              (pf.stocks.map (fun s => openv s * cnt s)).sum) ∧
      value_gained_all pf (some ((pf.stocks.map (fun s => lastv s * cnt s)).sum)) =
        some ((pf.stocks.map (fun s => lastv s * cnt s)).sum - pf.initial_value)) ∧
    (∀ items : List (Stock × ℚ × ℚ × Option String),
      (items.foldl (fun pf it => add_stock pf it.1 it.2.1 it.2.2.1 it.2.2.2)
          Portfolio.init).initial_value =
        (items.map (fun it => it.2.1 * it.2.2.1)).sum) ∧
    (populate [] (fun s => if s = "BBB" then ⟨false, [(5, 50)], [], none⟩
        else ⟨false, [(10, 100)], [], none⟩)
        [("AAA", [some 100, some 105, some 110]),
         ("BBB", [some 50, some 48, some 52])]).map
      (fun pf => (pf.initial_value, computeTotals pf,
        (computeTotals pf).map
          (fun t => (value_gained_day t.1 t.2, value_gained_all pf t.1)))) =
      some (1250, some (some 1360, some 1250), some (some 110, some 110)) := by
  refine ⟨?_, ?_, ?_⟩
  · intro pf cnt avgc lastv openv hm hl ho
    refine ⟨?_, by simp [value_gained_day, vsub], by simp [value_gained_all, vsub]⟩
    have h := computeTotalsGo_sum pf.stocks_metadata cnt avgc lastv openv pf.stocks
      hm hl ho 0 0
    simpa [computeTotals] using h
  · intro items
    simpa [Portfolio.init] using add_stock_fold_initial items Portfolio.init
  · norm_num +decide [populate, populateFrom, populateStep, average_buyin, add_stock,
      Portfolio.init, checkColor, computeTotals, computeTotalsGo, lookupMeta,
      Stock.calc_value, Stock.get_curr, Stock.get_open, vmul, vadd, vsub,
      value_gained_day, value_gained_all]

/-- Witness for C5 on the AAA/BBB example ledger. -/
theorem portfolio_totals_witness :
    computeTotals (Portfolio.mk
      [(⟨"AAA", some 110, [some 100, some 105, some 110], false, none⟩ : Stock),
       (⟨"BBB", some 52, [some 50, some 48, some 52], false, none⟩ : Stock)]
      [("AAA", 10, 100), ("BBB", 5, 50)] 1250 [none, none]) =
      some (some 1360, some 1250) := by
  have h := (portfolio_totals.1
    (Portfolio.mk
      [(⟨"AAA", some 110, [some 100, some 105, some 110], false, none⟩ : Stock),
       (⟨"BBB", some 52, [some 50, some 48, some 52], false, none⟩ : Stock)]
      [("AAA", 10, 100), ("BBB", 5, 50)] 1250 [none, none])
    (fun s => if s.symbol = "AAA" then 10 else 5)
    (fun s => if s.symbol = "AAA" then 100 else 50)
    (fun s => if s.symbol = "AAA" then 110 else 52)
    (fun s => if s.symbol = "AAA" then 100 else 50)
    (by decide) (by decide) (by decide)).1
  rw [h]
  norm_num +decide

/-- The plotting loop resolves the color of the series at offset `j` from
the chart's own color list at position `i + j`, where `i` is the loop's
starting index. -/
theorem plotStocks_entry :
    ∀ (gl : List Stock) (i : Nat) (cl : List (Option String))
      (sts : List Stock) (ps : List PlotEntry),
      plotStocks i gl cl = some (sts, ps) →
      ∀ (j : Nat) (st : Stock), gl[j]? = some st →
        ∃ creq e, cl[i + j]? = some creq ∧ ps[j]? = some e ∧
          e.symbol = st.symbol ∧ e.color = resolveChartColor creq (i + j) := by
  intro gl
  induction gl with
  | nil => intro i cl sts ps h j st hj; simp at hj
  | cons st0 rest ih =>
    intro i cl sts ps h j st hj
    simp only [plotStocks] at h
    cases hc : cl[i]? with
    | none => simp [hc] at h
    | some creq0 =>
      cases hd : repairNaN st0.data with
      | none => simp [hc, hd] at h
      | some d =>
        cases hrec : plotStocks (i + 1) rest cl with
        | none => simp [hc, hd, hrec] at h
        | some pr =>
          simp [hc, hd, hrec] at h
          cases j with
          | zero =>
            simp at hj
            refine ⟨creq0, ⟨st0.symbol, resolveChartColor creq0 i, d⟩,
              by simpa using hc, ?_, by simp [hj], by simp⟩
            rw [← h.2]
            simp
          | succ k =>
            simp at hj
            obtain ⟨creq, e, hcq, hpe, hsym, hcol⟩ :=
              ih (i + 1) cl pr.1 pr.2 (by rw [hrec]) k st hj
            refine ⟨creq, e, ?_, ?_, hsym, ?_⟩
            · rw [show i + (k + 1) = i + 1 + k by omega]; exact hcq
            · rw [← h.2]; simpa using hpe
            · rw [show i + (k + 1) = i + 1 + k by omega]; exact hcol

/-- C8 amended: a holding whose requested color is `None` is drawn with
`auto_colors[j % 67]` where `j` is its position within the *chart's own
series list* — in combined mode its index among the graph-flagged
holdings paired with the color-list prefix, in independent mode always 0 —
not its configuration-declared index in the portfolio. -/
theorem fallback_color_position (gl : List Stock) (cl : List (Option String))
    (g : GraphOut) (sts : List Stock) (h : gen_graph gl cl = some (g, sts)) :
    ∀ (j : Nat) (st : Stock), gl[j]? = some st → cl[j]? = some none →
      ∃ e, g.plots[j]? = some e ∧ e.symbol = st.symbol ∧
        e.color = ChartColor.autoIdx (j % 67) := by
  obtain ⟨yr, ps, hyr, hps, hg⟩ := gen_graph_some gl cl g sts h
  intro j st hj hcl
  obtain ⟨creq, e, hc, he, hsym, hcol⟩ := plotStocks_entry gl 0 cl sts ps hps j st hj
  rw [Nat.zero_add] at hc hcol
  rw [hcl] at hc
  have hcq : creq = none := by injection hc with h2; exact h2.symm
  subst hcq
  exact ⟨e, by rw [hg]; exact he, hsym, by rw [hcol]; rfl⟩

/-- C8 counterexample: portfolio "AAA" (not graphed, color unset) then
"BBB" (graphed, color unset), combined mode.  "BBB" has
configuration-declared index 1, so the claim requires
`palette[1 mod 67]`; the code instead pairs the graphing list with the
color-list prefix and cycles by position within that list, drawing "BBB"
with `palette[0]`. -/
theorem fallback_color_counterexample :
    ((populate [] (fun s => if s = "BBB" then ⟨true, [(1, 2)], [], none⟩
        else ⟨false, [(1, 2)], [], none⟩)
        [("AAA", [some 5]), ("BBB", [some 6])]).bind (gen_graphs false)).map
      (fun pr => pr.2.map (fun g => g.plots.map (fun e => (e.symbol, e.color)))) =
      some [[(("BBB" : String), ChartColor.autoIdx 0)]] ∧
    ChartColor.autoIdx 0 ≠ ChartColor.autoIdx (1 % 67) := by
  constructor
  · norm_num +decide [populate, populateFrom, populateStep, average_buyin, add_stock,
      Portfolio.init, checkColor, gen_graphs, gen_graph, find_y_range, find_y_rangeGo,
      pymin, pymax, vlt, plotStocks, resolveChartColor, repairNaN, repairGo,
      mergeRepaired]
  · decide

/-- Witness for C8 (amended) on a single-series chart with unset color. -/
theorem fallback_color_position_witness :
    ∃ e, (GraphOut.mk (some 5) (some 5)
        [(⟨"S", ChartColor.autoIdx 0, [some 5]⟩ : PlotEntry)]).plots[0]? = some e ∧
      e.symbol = (⟨"S", some 5, [some 5], true, none⟩ : Stock).symbol ∧
      e.color = ChartColor.autoIdx (0 % 67) :=
  fallback_color_position [(⟨"S", some 5, [some 5], true, none⟩ : Stock)] [none]
    (GraphOut.mk (some 5) (some 5) [(⟨"S", ChartColor.autoIdx 0, [some 5]⟩ : PlotEntry)])
    [(⟨"S", some 5, [some 5], true, none⟩ : Stock)]
    (by norm_num +decide [gen_graph, find_y_range, find_y_rangeGo, pymin, pymax, vlt,
      plotStocks, resolveChartColor, repairNaN, repairGo])
    0 (⟨"S", some 5, [some 5], true, none⟩ : Stock) rfl rfl

/-- Folding `min` never exceeds the seed. -/
theorem foldl_min_le_init : ∀ (xs : List ℚ) (m : ℚ), xs.foldl min m ≤ m := by
  intro xs
  induction xs with
  | nil => intro m; simp
  | cons y ys ih => intro m; exact le_trans (ih (min m y)) (min_le_left m y)

/-- Folding `min` is a lower bound of the list. -/
theorem foldl_min_le_mem : ∀ (xs : List ℚ) (m x : ℚ), x ∈ xs → xs.foldl min m ≤ x := by
  intro xs
  induction xs with
  | nil => intro m x hx; simp at hx
  | cons y ys ih =>
    intro m x hx
    rcases List.mem_cons.mp hx with rfl | hx
    · exact le_trans (foldl_min_le_init ys (min m x)) (min_le_right m x)
    · exact ih (min m y) x hx

/-- Folding `min` attains either the seed or a list element. -/
theorem foldl_min_choice : ∀ (xs : List ℚ) (m : ℚ),
    xs.foldl min m = m ∨ xs.foldl min m ∈ xs := by
  intro xs
  induction xs with
  | nil => intro m; left; rfl
  | cons y ys ih =>
    intro m
    rcases ih (min m y) with h | h
    · rcases le_total m y with hle | hle
      · left; rw [List.foldl_cons, h, min_eq_left hle]
      · right; rw [List.foldl_cons, h, min_eq_right hle]; exact List.mem_cons_self y ys
    · right; rw [List.foldl_cons]; exact List.mem_cons_of_mem y h

/-- Folding `max` never falls below the seed. -/
theorem foldl_max_ge_init : ∀ (xs : List ℚ) (m : ℚ), m ≤ xs.foldl max m := by
  intro xs
  induction xs with
  | nil => intro m; simp
  | cons y ys ih => intro m; exact le_trans (le_max_left m y) (ih (max m y))

/-- Folding `max` is an upper bound of the list. -/
theorem foldl_max_ge_mem : ∀ (xs : List ℚ) (m x : ℚ), x ∈ xs → x ≤ xs.foldl max m := by
  intro xs
  induction xs with
  | nil => intro m x hx; simp at hx
  | cons y ys ih =>
    intro m x hx
    rcases List.mem_cons.mp hx with rfl | hx
    · exact le_trans (le_max_right m x) (foldl_max_ge_init ys (max m x))
    · exact ih (max m y) x hx

/-- Folding `max` attains either the seed or a list element. -/
theorem foldl_max_choice : ∀ (xs : List ℚ) (m : ℚ),
    xs.foldl max m = m ∨ xs.foldl max m ∈ xs := by
  intro xs
  induction xs with
  | nil => intro m; left; rfl
  | cons y ys ih =>
    intro m
    rcases ih (max m y) with h | h
    · rcases le_total m y with hle | hle
      · right; rw [List.foldl_cons, h, max_eq_right hle]; exact List.mem_cons_self y ys
      · left; rw [List.foldl_cons, h, max_eq_left hle]
    · right; rw [List.foldl_cons]; exact List.mem_cons_of_mem y h

/-- On a finite series Python's running-minimum loop computes a `min`
fold. -/
theorem pymin_go_finite : ∀ (xs : List ℚ) (m : ℚ),
    (xs.map some).foldl (fun m y => if vlt y m then y else m) (some m) =
      some (xs.foldl min m) := by
  intro xs
  induction xs with
  | nil => intro m; rfl
  | cons y ys ih =>
    intro m
    rw [List.map_cons, List.foldl_cons]
    rcases lt_or_le y m with hlt | hle
    · have hv : vlt (some y) (some m) = true := by simp [vlt, hlt]
      rw [if_pos hv, ih y, List.foldl_cons, min_eq_right (le_of_lt hlt)]
    · have hv : ¬ (vlt (some y) (some m) = true) := by simp [vlt, not_lt.mpr hle]
      rw [if_neg hv, ih m, List.foldl_cons, min_eq_left hle]

/-- On a finite series Python's running-maximum loop computes a `max`
fold. -/
theorem pymax_go_finite : ∀ (xs : List ℚ) (m : ℚ),
    (xs.map some).foldl (fun m y => if vlt m y then y else m) (some m) =
      some (xs.foldl max m) := by
  intro xs
  induction xs with
  | nil => intro m; rfl
  | cons y ys ih =>
    intro m
    rw [List.map_cons, List.foldl_cons]
    rcases lt_or_le m y with hlt | hle
    · have hv : vlt (some m) (some y) = true := by simp [vlt, hlt]
      rw [if_pos hv, ih y, List.foldl_cons, max_eq_right (le_of_lt hlt)]
    · have hv : ¬ (vlt (some m) (some y) = true) := by simp [vlt, not_lt.mpr hle]
      rw [if_neg hv, ih m, List.foldl_cons, max_eq_left hle]

/-- A series with only finite samples is the `some`-image of its rational
values. -/
theorem finite_eq_map_some : ∀ d : List Val, (∀ v ∈ d, v.isSome) →
    d = (d.filterMap id).map some := by
  intro d
  induction d with
  | nil => intro _; rfl
  | cons v rest ih =>
    intro h
    have hv : v.isSome := h v (by simp)
    obtain ⟨x, rfl⟩ := Option.isSome_iff_exists.mp hv
    have := ih (fun w hw => h w (by simp [hw]))
    simp only [List.filterMap_cons, id]
    rw [List.map_cons]
    exact congrArg (some x :: ·) this

/-- `min(stock.data)` on a nonempty finite series is its true minimum. -/
theorem pymin_finite (d : List Val) (hne : d ≠ []) (hfin : ∀ v ∈ d, v.isSome) :
    ∃ mn, pymin d = some (some mn) ∧ mn ∈ d.filterMap id ∧
      ∀ x ∈ d.filterMap id, mn ≤ x := by
  obtain ⟨q, qs, hq⟩ : ∃ q qs, d.filterMap id = q :: qs := by
    cases hd : d.filterMap id with
    | nil =>
      exfalso
      cases d with
      | nil => exact hne rfl
      | cons v rest =>
        have hv := hfin v (by simp)
        obtain ⟨x, rfl⟩ := Option.isSome_iff_exists.mp hv
        simp [List.filterMap_cons, id] at hd
    | cons q qs => exact ⟨q, qs, rfl⟩
  have hshape := finite_eq_map_some d hfin
  rw [hq, List.map_cons] at hshape
  refine ⟨qs.foldl min q, ?_, ?_, ?_⟩
  · rw [hshape]
    simp only [pymin]
    rw [pymin_go_finite]
  · rw [hq]
    rcases foldl_min_choice qs q with h | h
    · rw [h]; exact List.mem_cons_self q qs
    · exact List.mem_cons_of_mem q h
  · rw [hq]
    intro x hx
    rcases List.mem_cons.mp hx with rfl | hx
    · exact foldl_min_le_init qs x
    · exact foldl_min_le_mem qs q x hx

/-- `max(stock.data)` on a nonempty finite series is its true maximum. -/
theorem pymax_finite (d : List Val) (hne : d ≠ []) (hfin : ∀ v ∈ d, v.isSome) :
    ∃ mx, pymax d = some (some mx) ∧ mx ∈ d.filterMap id ∧
      ∀ x ∈ d.filterMap id, x ≤ mx := by
  obtain ⟨q, qs, hq⟩ : ∃ q qs, d.filterMap id = q :: qs := by
    cases hd : d.filterMap id with
    | nil =>
      exfalso
      cases d with
      | nil => exact hne rfl
      | cons v rest =>
        have hv := hfin v (by simp)
        obtain ⟨x, rfl⟩ := Option.isSome_iff_exists.mp hv
        simp [List.filterMap_cons, id] at hd
    | cons q qs => exact ⟨q, qs, rfl⟩
  have hshape := finite_eq_map_some d hfin
  rw [hq, List.map_cons] at hshape
  refine ⟨qs.foldl max q, ?_, ?_, ?_⟩
  · rw [hshape]
    simp only [pymax]
    rw [pymax_go_finite]
  · rw [hq]
    rcases foldl_max_choice qs q with h | h
    · rw [h]; exact List.mem_cons_self q qs
    · exact List.mem_cons_of_mem q h
  · rw [hq]
    intro x hx
    rcases List.mem_cons.mp hx with rfl | hx
    · exact foldl_max_ge_init qs x
    · exact foldl_max_ge_mem qs q x hx

/-- The `y_min` update `if y_min > min(data): y_min = min(data)` on finite
values is a `min`. -/
theorem vlt_min_step (a m : ℚ) :
    (if vlt (some a) (some m) then (some a : Val) else some m) = some (min m a) := by
  rcases lt_or_le a m with hlt | hle
  · rw [if_pos (by simp [vlt, hlt]), min_eq_right (le_of_lt hlt)]
  · rw [if_neg (by simp [vlt, not_lt.mpr hle]), min_eq_left hle]

/-- The `y_max` update `if y_max < max(data): y_max = max(data)` on finite
values is a `max`. -/
theorem vlt_max_step (m b : ℚ) :
    (if vlt (some m) (some b) then (some b : Val) else some m) = some (max m b) := by
  rcases lt_or_le m b with hlt | hle
  · rw [if_pos (by simp [vlt, hlt]), max_eq_right (le_of_lt hlt)]
  · rw [if_neg (by simp [vlt, not_lt.mpr hle]), max_eq_left hle]

/-- Unfolding `allSamples` over the head stock. -/
theorem allSamples_cons (s : Stock) (rest : List Stock) :
    allSamples (s :: rest) = s.data.filterMap id ++ allSamples rest := by
  simp [allSamples]

/-- Invariant of the `find_y_range` loop on nonempty finite series: the
running bounds end at the seed clipped against the true minimum/maximum of
all samples. -/
theorem find_y_rangeGo_inv :
    ∀ (stocks : List Stock) (m M : ℚ),
      (∀ s ∈ stocks, s.data ≠ []) →
      (∀ s ∈ stocks, ∀ v ∈ s.data, v.isSome) →
      ∃ a b, find_y_rangeGo (some m) (some M) stocks = some (some a, some b) ∧
        (a = m ∨ a ∈ allSamples stocks) ∧ a ≤ m ∧ (∀ x ∈ allSamples stocks, a ≤ x) ∧
        (b = M ∨ b ∈ allSamples stocks) ∧ M ≤ b ∧ (∀ x ∈ allSamples stocks, x ≤ b) := by
  intro stocks
  induction stocks with
  | nil =>
    intro m M _ _
    exact ⟨m, M, rfl, Or.inl rfl, le_refl m, by simp [allSamples],
      Or.inl rfl, le_refl M, by simp [allSamples]⟩
  | cons s rest ih =>
    intro m M hd hf
    obtain ⟨mn, hmn, hmnmem, hmnlb⟩ := pymin_finite s.data (hd s (by simp)) (hf s (by simp))
    obtain ⟨mx, hmx, hmxmem, hmxub⟩ := pymax_finite s.data (hd s (by simp)) (hf s (by simp))
    obtain ⟨a, b, heq, hach, halm, halow, hbch, hbM, hbhigh⟩ :=
      ih (min m mn) (max M mx) (fun t ht => hd t (by simp [ht]))
        (fun t ht => hf t (by simp [ht]))
    refine ⟨a, b, ?_, ?_, ?_, ?_, ?_, ?_, ?_⟩
    · simp only [find_y_rangeGo, hmn, hmx, Option.bind_eq_bind, Option.some_bind]
      rw [vlt_min_step, vlt_max_step]
      exact heq
    · rcases hach with rfl | hmem
      · rcases le_total m mn with hle | hle
        · exact Or.inl (min_eq_left hle)
        · refine Or.inr ?_
          rw [allSamples_cons, min_eq_right hle]
          exact List.mem_append_left _ hmnmem
      · exact Or.inr (by rw [allSamples_cons]; exact List.mem_append_right _ hmem)
    · exact le_trans halm (min_le_left m mn)
    · intro x hx
      rw [allSamples_cons] at hx
      rcases List.mem_append.mp hx with hx | hx
      · exact le_trans (le_trans halm (min_le_right m mn)) (hmnlb x hx)
      · exact halow x hx
    · rcases hbch with rfl | hmem
      · rcases le_total mx M with hle | hle
        · exact Or.inl (max_eq_left hle)
        · refine Or.inr ?_
          rw [allSamples_cons, max_eq_right hle]
          exact List.mem_append_left _ hmxmem
      · exact Or.inr (by rw [allSamples_cons]; exact List.mem_append_right _ hmem)
    · exact le_trans (le_max_left M mx) hbM
    · intro x hx
      rw [allSamples_cons] at hx
      rcases List.mem_append.mp hx with hx | hx
      · exact le_trans (hmxub x hx) (le_trans (le_max_right M mx) hbM)
      · exact hbhigh x hx

/-- C9 amended: for stocks with nonempty, all-finite series, whose overall
minimum does not exceed the seed `10000000000000` and whose overall
maximum is at least the seed `0`, `find_y_range` returns exactly the true
minimum and maximum of the union of all included samples.  (The two seed
conditions are necessary: see the counterexample.) -/
theorem find_y_range_amended (stocks : List Stock)
    (hd : ∀ s ∈ stocks, s.data ≠ [])
    (hf : ∀ s ∈ stocks, ∀ v ∈ s.data, v.isSome)
    (hlow : ∃ x ∈ allSamples stocks, x ≤ 10000000000000)
    (hhigh : ∃ x ∈ allSamples stocks, 0 ≤ x) :
    ∃ a b, find_y_range stocks = some (some a, some b) ∧
      a ∈ allSamples stocks ∧ (∀ x ∈ allSamples stocks, a ≤ x) ∧
      b ∈ allSamples stocks ∧ (∀ x ∈ allSamples stocks, x ≤ b) := by
  obtain ⟨a, b, heq, hach, halm, halow, hbch, hbM, hbhigh⟩ :=
    find_y_rangeGo_inv stocks 10000000000000 0 hd hf
  refine ⟨a, b, heq, ?_, halow, ?_, hbhigh⟩
  · rcases hach with h | hmem
    · obtain ⟨x, hx, hxle⟩ := hlow
      have hax : a = x := le_antisymm (halow x hx) (by rw [h]; exact hxle)
      rw [hax]; exact hx
    · exact hmem
  · rcases hbch with h | hmem
    · obtain ⟨x, hx, hxge⟩ := hhigh
      have hbx : b = x := le_antisymm (by rw [h]; exact hxge) (hbhigh x hx)
      rw [hbx]; exact hx
    · exact hmem

/-- C9 counterexample: a single included series whose only sample is
`2 * 10^13` — above the hard-coded seed `10^13` — yields the y-range
`[10^13, 2*10^13]`, whose lower bound is not a sample at all, so the
computed lower bound is not the true minimum of the included samples. -/
theorem find_y_range_counterexample :
    find_y_range [(⟨"A", some 20000000000000, [some 20000000000000], true, none⟩ : Stock)] =
      some (some 10000000000000, some 20000000000000) ∧
    ¬ ((10000000000000 : ℚ) ∈
      allSamples [(⟨"A", some 20000000000000, [some 20000000000000], true, none⟩ : Stock)]) := by
  constructor
  · norm_num [find_y_range, find_y_rangeGo, pymin, pymax, vlt]
  · decide

/-- Witness for C9 (amended) on the series `[5, 3]`. -/
theorem find_y_range_amended_witness :
    ∃ a b, find_y_range [(⟨"A", some 5, [some 5, some 3], true, none⟩ : Stock)] =
        some (some a, some b) ∧
      a ∈ allSamples [(⟨"A", some 5, [some 5, some 3], true, none⟩ : Stock)] ∧
      (∀ x ∈ allSamples [(⟨"A", some 5, [some 5, some 3], true, none⟩ : Stock)], a ≤ x) ∧
      b ∈ allSamples [(⟨"A", some 5, [some 5, some 3], true, none⟩ : Stock)] ∧
      (∀ x ∈ allSamples [(⟨"A", some 5, [some 5, some 3], true, none⟩ : Stock)], x ≤ b) :=
  find_y_range_amended [(⟨"A", some 5, [some 5, some 3], true, none⟩ : Stock)]
    (by decide) (by decide) (by decide) (by decide)
